import Mathlib

set_option maxHeartbeats 2000000
set_option maxRecDepth 4000

namespace PyCortex

/-!
Verification development for the pycortex surface-analysis core
(`cortex/utils.py`).  The Python routines are shallowly embedded below:
exact rational arithmetic (`ℚ`) models the discrete/comparison logic of the
NumPy code, while real-valued (`ℝ`) quantities (square roots, exponentials,
logarithms) model the floating-point values the code produces.  Stateful
loops are modelled either as folds or as explicit step relations.
-/

/-- Points in world space: rational 3-vectors (models float triples). -/
abbrev Vec3 := ℚ × ℚ × ℚ

/-- Squared Euclidean distance between two points.  The code works with
`np.sqrt` of this quantity; the rational square keeps the kernel able to
evaluate it, and `Real.sqrt` is applied where the float value is needed. -/
def sqdist (a b : Vec3) : ℚ :=
  (a.1 - b.1)^2 + (a.2.1 - b.2.1)^2 + (a.2.2 - b.2.2)^2

/-- Euclidean distance as a real number (the float the code computes). -/
noncomputable def edist (a b : Vec3) : ℝ :=
  Real.sqrt (sqdist a b)

/-! ### 4×4 affine matrices and `np.linalg.inv`

`get_vox_dist` applies `np.linalg.inv(xfm)` to homogeneous voxel indices.
We embed 4×4 matrices as `Fin 4 → Fin 4 → ℚ` and implement the exact
inverse by the adjugate/cofactor formula (the mathematical function that
`np.linalg.inv` computes for an invertible matrix). -/

abbrev Mat4 := Fin 4 → Fin 4 → ℚ

/-- Determinant of a 3×3 matrix given entrywise. -/
def det3 (a b c d e f g h i : ℚ) : ℚ :=
  a * (e * i - f * h) - b * (d * i - f * g) + c * (d * h - e * g)

/-- The three indices of `Fin 4` other than the given one, in order. -/
def others : Fin 4 → Fin 4 × Fin 4 × Fin 4
  | 0 => (1, 2, 3)
  | 1 => (0, 2, 3)
  | 2 => (0, 1, 3)
  | 3 => (0, 1, 2)

/-- Minor of `A` obtained by deleting row `i` and column `j`. -/
def minor4 (A : Mat4) (i j : Fin 4) : ℚ :=
  let r := others i
  let c := others j
  det3 (A r.1 c.1) (A r.1 c.2.1) (A r.1 c.2.2)
       (A r.2.1 c.1) (A r.2.1 c.2.1) (A r.2.1 c.2.2)
       (A r.2.2 c.1) (A r.2.2 c.2.1) (A r.2.2 c.2.2)

/-- Determinant of a 4×4 matrix (Laplace expansion along the first row). -/
def det4 (A : Mat4) : ℚ :=
  A 0 0 * minor4 A 0 0 - A 0 1 * minor4 A 0 1
    + A 0 2 * minor4 A 0 2 - A 0 3 * minor4 A 0 3

/-- Exact inverse of a 4×4 matrix by the adjugate formula; this is the
value `np.linalg.inv(xfm)` returns for an invertible `xfm`. -/
def inv4 (A : Mat4) : Mat4 := fun i j =>
  (-1 : ℚ)^(i.1 + j.1) * minor4 A j i / det4 A

/-- The identity affine. -/
def idMat4 : Mat4 := fun i j => if i = j then 1 else 0

/-- Matrix-vector product of a 4×4 matrix with a 4-vector. -/
def mulVec4 (A : Mat4) (v : Fin 4 → ℚ) : Fin 4 → ℚ := fun i =>
  A i 0 * v 0 + A i 1 * v 1 + A i 2 * v 2 + A i 3 * v 3

/-! ### `get_vox_dist`: voxel world coordinates and the KD-tree query -/

/-- The homogeneous vector the code builds for a voxel index `(i, j, k)`:
`widx = np.append(idx[:, ::-1], ones)` REVERSES the index triple before
appending the 1, so the vector is `(k, j, i, 1)`. -/
def homRev (v : ℕ × ℕ × ℕ) : Fin 4 → ℚ
  | 0 => (v.2.2 : ℚ)
  | 1 => (v.2.1 : ℚ)
  | 2 => (v.1 : ℚ)
  | 3 => 1

/-- Homogeneous vector as the spec describes it ("append a 1" to the voxel
index, with no reversal): `(i, j, k, 1)`.  Used only to compare the claim's
wording against the code. -/
def homSpec (v : ℕ × ℕ × ℕ) : Fin 4 → ℚ
  | 0 => (v.1 : ℚ)
  | 1 => (v.2.1 : ℚ)
  | 2 => (v.2.2 : ℚ)
  | 3 => 1

/-- World coordinate of a voxel as the code computes it:
`mm = np.dot(np.linalg.inv(xfm), widx)[:3]` with the reversed index. -/
def worldCoord (xfm : Mat4) (v : ℕ × ℕ × ℕ) : Vec3 :=
  let w := mulVec4 (inv4 xfm) (homRev v)
  (w 0, w 1, w 2)

/-- World coordinate of a voxel as the claim words it (no reversal).
Modelled from the spec: "transform voxel indices to world coordinates using
the supplied affine's inverse, via homogeneous coordinates (append a 1,
apply the 4×4 inverse matrix, take the first 3 components)". -/
def worldCoordClaim (xfm : Mat4) (v : ℕ × ℕ × ℕ) : Vec3 :=
  let w := mulVec4 (inv4 xfm) (homSpec v)
  (w 0, w 1, w 2)

/-- Recursive core of the nearest-neighbour query: scan the remaining
vertices keeping the best (squared distance, index) pair.  This is the
semantics of `scipy.spatial.cKDTree(fiducial).query(mm)`, which returns the
exact nearest vertex. -/
def tq (q : Vec3) : List Vec3 → ℚ × ℕ → ℕ → ℚ × ℕ
  | [], best, _ => best
  | v :: rest, best, i =>
      tq q rest (if sqdist q v < best.1 then (sqdist q v, i) else best) (i + 1)

/-- Nearest-neighbour query over the concatenated fiducial vertex list:
returns the squared distance to, and index of, the nearest vertex. -/
def tree_query (fid : List Vec3) (q : Vec3) : ℚ × ℕ :=
  match fid with
  | [] => (0, 0)
  | v :: rest => tq q rest (sqdist q v, 0) 1

/-- `get_vox_dist` per voxel: squared distance and nearest-vertex index for
one voxel of the (reversed-shape) grid. -/
def vox_dist (xfm : Mat4) (fid : List Vec3) (v : ℕ × ℕ × ℕ) : ℚ × ℕ :=
  tree_query fid (worldCoord xfm v)

/-- The distance `get_vox_dist` reports for a voxel (the float value). -/
noncomputable def vox_dist_mm (xfm : Mat4) (fid : List Vec3) (v : ℕ × ℕ × ℕ) : ℝ :=
  Real.sqrt ((vox_dist xfm fid v).1 : ℝ)

/-- Row-major enumeration of the voxel indices of a grid
(`np.mgrid[:s0, :s1, :s2].reshape(3, -1).T`). -/
def voxGrid (shape : ℕ × ℕ × ℕ) : List (ℕ × ℕ × ℕ) :=
  (List.range shape.1).flatMap fun i =>
    (List.range shape.2.1).flatMap fun j =>
      (List.range shape.2.2).map fun k => (i, j, k)

/-! ### `get_roi_masks`

The collaborators (`get_roipack`, `surfs.getCoords`, `surfs.getVTK`,
`rois.get_roi`, the reference-volume shape and the affine) are modelled as
the fields of `RoiIn`; the function body below mirrors the source line by
line.  Boolean masks over the flattened voxel grid are lists indexed by
voxel position. -/

structure RoiIn where
  shape : ℕ × ℕ × ℕ
  xfm : Mat4
  fidL : List Vec3
  fidR : List Vec3
  coords : List Vec3
  vertIdx : List ℕ
  Lpolys : List (ℕ × ℕ × ℕ)
  roiGet : String → List ℕ

/-- The three vertex indices of a triangle, as a list. -/
def triL (t : ℕ × ℕ × ℕ) : List ℕ := [t.1, t.2.1, t.2.2]

/-- `nL = len(np.unique(L[1]))`: the number of DISTINCT vertex indices
occurring in the left flat triangle list (not the left vertex count). -/
def nLflat (polys : List (ℕ × ℕ × ℕ)) : ℕ :=
  ((polys.flatMap triL).dedup).length

/-- Last value assigned to key `k` by a NumPy scatter `a[idx] = vals`
(with duplicate indices, the last write wins). -/
def lastHit {α : Type} : List (ℕ × α) → ℕ → Option α
  | [], _ => none
  | p :: rest, k =>
      match lastHit rest k with
      | some x => some x
      | none => if p.1 = k then some p.2 else none

/-- NumPy scatter assignment `out = zeros(n); out[idx] = vals` for boolean
values. -/
def scatterBool (n : ℕ) (idx : List ℕ) (vals : List Bool) : List Bool :=
  (List.range n).map fun g => (lastHit (idx.zip vals) g).getD false

/-- Nearest-vertex index of a voxel; `voxIdx` of
`get_vox_dist(subject, xfmname)` with the merged (left ++ right)
fiducial vertex list. -/
def voxIdxAt (inp : RoiIn) (v : ℕ × ℕ × ℕ) : ℕ :=
  (vox_dist inp.xfm (inp.fidL ++ inp.fidR) v).2

/-- Squared nearest-vertex distance of a voxel (the code's `voxDst` is its
square root). -/
def voxSqAt (inp : RoiIn) (v : ℕ × ℕ × ℕ) : ℚ :=
  (vox_dist inp.xfm (inp.fidL ++ inp.fidR) v).1

/-- `Lmask = (voxIdx < nL)`. -/
def lmaskAt (inp : RoiIn) (v : ℕ × ℕ × ℕ) : Bool :=
  decide (voxIdxAt inp v < nLflat inp.Lpolys)

/-- `Rmask = np.logical_not(Lmask)`. -/
def rmaskAt (inp : RoiIn) (v : ℕ × ℕ × ℕ) : Bool :=
  !lmaskAt inp v

/-- `CxMask = (voxDst < Dst)`: the float comparison `sqrt(sq) < Dst` holds
exactly when `0 < Dst ∧ sq < Dst²` (see `cxAt_iff`). -/
def cxAt (inp : RoiIn) (Dst : ℚ) (v : ℕ × ℕ × ℕ) : Bool :=
  decide (0 < Dst ∧ voxSqAt inp v < Dst ^ 2)

/-- Python's `str.lower()`, per character (structural recursion so the
kernel can evaluate it, unlike `String.toLower`). -/
def strLower (s : String) : String := ⟨s.data.map Char.toLower⟩

/-- Candidate-membership volume for one ROI (`roiIdxB3` in the source):
"cortex" selects every voxel; otherwise the ROI's valid-space vertex set is
translated through `vertIdx` into full fiducial vertex space and each voxel
tests its nearest-vertex index for membership (`np.in1d(voxIdxF, roiIdxS2)`).
`nVerts`/`nValidVerts` are `np.max(coords.shape)` before/after the
`coords[vertIdx]` restriction (hence the `max _ 3`). -/
def roiB3 (inp : RoiIn) (voxIdxF : List ℕ) (roi : String) : List Bool :=
  let nVox := voxIdxF.length
  let nVerts := max inp.coords.length 3
  let nValidVerts := max inp.vertIdx.length 3
  if strLower roi = "cortex" then List.replicate nVox true
  else
    let B1 := (List.range nValidVerts).map fun t => decide (t ∈ inp.roiGet roi)
    let B2 := scatterBool nVerts inp.vertIdx B1
    let S2 := (List.range nVerts).filter fun g => B2.getD g false
    voxIdxF.map fun ix => decide (ix ∈ S2)

/-- `get_roi_masks(subject, xfmname, roiList, Dst, overlapOpt)`.

Output: the flattened signed mask volume and the `roiIdx` association list.
The final `mask.shape = shape` reshape (performed only in the `'cut'`
branch of the source) is a pure layout change of the same flat data and is
not modelled.  The `toCut` clearing models `tmpMask[toCut] = False`, a
boolean index of shape (nVox, 2) applied to the (nVox, nROI, 2) array: the
pairs `(voxel, hemisphere-column)` where `toCut` is true are interpreted as
`(voxel, ROI-axis)` positions, so the ROI with index equal to the
HEMISPHERE number is cleared — for a two-ROI request this is exactly what
NumPy does (and for other counts it matches the historical nonzero-based
coercion of mismatched boolean indices). -/
def roi_masks (inp : RoiIn) (roiList : List String) (Dst : ℚ)
    (overlapOpt : String) : List ℤ × List (String × ℕ) :=
  let nVox := inp.shape.1 * inp.shape.2.1 * inp.shape.2.2
  let vox := voxGrid inp.shape
  let voxIdxF := vox.map (voxIdxAt inp)
  let Lmask := vox.map (lmaskAt inp)
  let CxMask := vox.map (cxAt inp Dst)
  let tmp0 : List (List (Bool × Bool)) := roiList.map fun roi =>
    let b3 := roiB3 inp voxIdxF roi
    (List.range nVox).map fun p =>
      (b3.getD p false && Lmask.getD p false && CxMask.getD p false,
       b3.getD p false && !(Lmask.getD p false) && CxMask.getD p false)
  let lower := roiList.map strLower
  let tmp1 :=
    if "cortex" ∈ lower then
      let cIdx := lower.indexOf "cortex"
      tmp0.enum.map fun pr =>
        if pr.1 = cIdx then
          (List.range nVox).map fun p =>
            let c := pr.2.getD p (false, false)
            let oL := (tmp0.enum.filter fun q => q.1 ≠ cIdx).any
              fun q => (q.2.getD p (false, false)).1
            let oR := (tmp0.enum.filter fun q => q.1 ≠ cIdx).any
              fun q => (q.2.getD p (false, false)).2
            (!oL && c.1, !oR && c.2)
        else pr.2
    else tmp0
  if overlapOpt = "cut" then
    let cntL : ℕ → ℕ := fun p =>
      (tmp1.map fun col => if (col.getD p (false, false)).1 then 1 else 0).sum
    let cntR : ℕ → ℕ := fun p =>
      (tmp1.map fun col => if (col.getD p (false, false)).2 then 1 else 0).sum
    let tmp2 := tmp1.enum.map fun pr =>
      (List.range nVox).map fun p =>
        if (pr.1 = 0 ∧ 1 < cntL p) ∨ (pr.1 = 1 ∧ 1 < cntR p) then (false, false)
        else pr.2.getD p (false, false)
    let mask := (List.range roiList.length).foldl
      (fun m ir =>
        let colv := tmp2.getD ir []
        let m1 := m.enum.map fun pm =>
          if (colv.getD pm.1 (false, false)).1 then (-(ir : ℤ) - 1) else pm.2
        m1.enum.map fun pm =>
          if (colv.getD pm.1 (false, false)).2 then ((ir : ℤ) + 1) else pm.2)
      (List.replicate nVox (0 : ℤ))
    (mask, roiList.enum.map fun pr => (pr.2, pr.1 + 1))
  else
    (List.replicate nVox (0 : ℤ), [])

/-- Concrete `get_roi_masks` input: a single voxel at the world origin, a
three-vertex left hemisphere (all of whose vertices appear in the single
left flat triangle), one right vertex far away, and two ROIs "A" and "B"
that SHARE vertex 0 on the surface (an overlapping surface assignment, the
situation the source's own comment says is cut). -/
def inpC2 : RoiIn where
  shape := (1, 1, 1)
  xfm := idMat4
  fidL := [((0 : ℚ), 0, 0), (1, 0, 0), (0, 1, 0)]
  fidR := [((5 : ℚ), 5, 5)]
  coords := [((0 : ℚ), 0, 0), (1, 0, 0), (0, 1, 0), (5, 5, 5)]
  vertIdx := [0, 1, 2]
  Lpolys := [(0, 1, 2)]
  roiGet := fun r => if r = "A" then [0] else if r = "B" then [0] else []

/-- Concrete input refuting C4's boundary: the left fiducial mesh has FOUR
vertices but only three of them occur in the left flat triangle list
(vertex 3 is on the medial wall), so `nL = len(np.unique(L[1])) = 3`.  The
single voxel's nearest vertex is index 3 — a left-hemisphere vertex below
the left vertex count 4 — yet it is classified into `Rmask`. -/
def inpC4 : RoiIn where
  shape := (1, 1, 1)
  xfm := idMat4
  fidL := [((10 : ℚ), 0, 0), (11, 0, 0), (12, 0, 0), (0, 0, 0)]
  fidR := [((100 : ℚ), 0, 0)]
  coords := []
  vertIdx := []
  Lpolys := [(0, 1, 2)]
  roiGet := fun _ => []

/-! ### `get_curvature`

The raw per-vertex curvature (`tvtk.Curvatures`) is an external
collaborator: it enters as the function `curv`.  The `faces` dict maps each
vertex occurring in a triangle to the set of all vertices of the triangles
containing it (including the vertex itself: `faces[pt] |= set(poly)` with
`pt in poly`). -/

def facesOf (polys : List (ℕ × ℕ × ℕ)) (pt : ℕ) : Finset ℕ :=
  polys.foldl (fun acc t => if pt ∈ triL t then acc ∪ (triL t).toFinset else acc) ∅

/-- `getpts(pt, n)`: vertices yielded by the recursive neighbourhood
expansion, deduplicated (`list(set(getpts(i, neighborhood)))`). -/
def getpts (polys : List (ℕ × ℕ × ℕ)) : ℕ → ℕ → Finset ℕ
  | pt, 0 => facesOf polys pt
  | pt, Nat.succ n => (facesOf polys pt).biUnion fun p => getpts polys p n

/-- Gaussian weight `exp(-((pos_j - pos_i)**2).sum() / (2*smooth**2))`. -/
noncomputable def gaussW (smooth : ℚ) (a b : Vec3) : ℝ :=
  Real.exp (-((sqdist a b / (2 * smooth ^ 2) : ℚ) : ℝ))

/-- One vertex of the smoothing loop: the neighbour list (a set, in sorted
order — summation is order-independent), the weights `g`, and
`(g * curv[neighbors]).mean()`; vertices with no neighbours keep 0. -/
noncomputable def smooth_curv (verts : List Vec3) (polys : List (ℕ × ℕ × ℕ))
    (curv : ℕ → ℝ) (smooth : ℚ) (nbhd : ℕ) (i : ℕ) : ℝ :=
  let nbrs := (getpts polys i nbhd).sort (· ≤ ·)
  if nbrs.length = 0 then 0
  else (nbrs.map fun j =>
      gaussW smooth (verts.getD j (0, 0, 0)) (verts.getD i (0, 0, 0)) * curv j).sum
    / nbrs.length

/-- `get_curvature` for one hemisphere: raw curvature unchanged when
`smooth == 0`, otherwise the smoothing loop. -/
noncomputable def get_curvature_hemi (verts : List Vec3)
    (polys : List (ℕ × ℕ × ℕ)) (curv : ℕ → ℝ) (smooth : ℚ) (nbhd : ℕ) :
    ℕ → ℝ :=
  if smooth = 0 then curv
  else fun i => smooth_curv verts polys curv smooth nbhd i

/-- Gaussian-weighted average as the claim words it.  Modelled from the
spec: "each vertex's smoothed value is a Gaussian-weighted average of raw
curvature over its neighborhood, weight = exp(−‖Δposition‖²/(2·smooth²))" —
i.e. the weighted sum NORMALISED BY THE SUM OF THE WEIGHTS. -/
noncomputable def gaussAvgClaim (verts : List Vec3)
    (polys : List (ℕ × ℕ × ℕ)) (curv : ℕ → ℝ) (smooth : ℚ) (nbhd i : ℕ) : ℝ :=
  let nbrs := (getpts polys i nbhd).sort (· ≤ ·)
  (nbrs.map fun j =>
      gaussW smooth (verts.getD j (0, 0, 0)) (verts.getD i (0, 0, 0)) * curv j).sum
    / (nbrs.map fun j =>
      gaussW smooth (verts.getD j (0, 0, 0)) (verts.getD i (0, 0, 0))).sum

/-- A one-triangle mesh used in the curvature counterexample. -/
def verts3 : List Vec3 := [((0 : ℚ), 0, 0), (1, 0, 0), (0, 1, 0)]

def polys3 : List (ℕ × ℕ × ℕ) := [(0, 1, 2)]

/-- Raw curvature input: 1 at vertex 0, 0 elsewhere. -/
noncomputable def curvC7 : ℕ → ℝ := fun i => if i = 0 then 1 else 0

/-! ### `get_flatmap_distortion` (areal mode)

`triareas = lambda tr,v: [norm(cross(a-b, a-c))/2 for a,b,c in v[tr,:]]`,
then per-triangle ratios `flatareas/fidareas` are accumulated into
per-vertex slots with three fancy-indexed `+=` statements (NumPy semantics:
gather, add, scatter — for duplicate indices within one statement only the
LAST write survives), divided by `np.bincount`, zero ratios replaced by 1,
and logged.  `np.nan_to_num` maps the 0/0 = NaN case to 0, which matches
real division's 0/0 = 0; inputs whose fiducial areas vanish (float `inf`)
are excluded by hypothesis in the amended theorem. -/

/-- Squared norm of `np.cross(a - b, a - c)`. -/
def crossSq (a b c : Vec3) : ℚ :=
  let u1 := a.1 - b.1
  let u2 := a.2.1 - b.2.1
  let u3 := a.2.2 - b.2.2
  let w1 := a.1 - c.1
  let w2 := a.2.1 - c.2.1
  let w3 := a.2.2 - c.2.2
  (u2 * w3 - u3 * w2) ^ 2 + (u3 * w1 - u1 * w3) ^ 2 + (u1 * w2 - u2 * w1) ^ 2

/-- Area of one triangle of the list `v[tr,:]`:
`np.linalg.norm(np.cross(a-b, a-c))/2`. -/
noncomputable def triArea (verts : List Vec3) (t : ℕ × ℕ × ℕ) : ℝ :=
  Real.sqrt ((crossSq (verts.getD t.1 (0, 0, 0)) (verts.getD t.2.1 (0, 0, 0))
    (verts.getD t.2.2 (0, 0, 0)) : ℚ)) / 2

/-- Per-triangle area ratios `flatareas / fidareas` (both indexed by the
flat triangle list, which fiducial and flat meshes share). -/
noncomputable def ratiosOf (fid flat : List Vec3) (tris : List (ℕ × ℕ × ℕ)) :
    List ℝ :=
  tris.map fun t => triArea flat t / triArea fid t

/-- One fancy-indexed `vertratios[idx] += vals` statement. -/
noncomputable def scatAdd (acc : ℕ → ℝ) (idx : List ℕ) (vals : List ℝ) :
    ℕ → ℝ :=
  fun v => acc v + (lastHit (idx.zip vals) v).getD 0

/-- The three sequential scatter statements over the triangle columns. -/
noncomputable def vertRatios (fid flat : List Vec3)
    (tris : List (ℕ × ℕ × ℕ)) : ℕ → ℝ :=
  scatAdd
    (scatAdd
      (scatAdd (fun _ => 0) (tris.map fun t => t.1) (ratiosOf fid flat tris))
      (tris.map fun t => t.2.1) (ratiosOf fid flat tris))
    (tris.map fun t => t.2.2) (ratiosOf fid flat tris)

/-- `np.bincount(flattri.ravel())[v]`. -/
def bincountAt (tris : List (ℕ × ℕ × ℕ)) (v : ℕ) : ℕ :=
  (tris.flatMap triL).count v

/-- Per-vertex areal distortion: divide the accumulated ratios by the
occurrence counts, replace zero by 1 (`vertratios[vertratios==0] = 1`,
covering the `nan_to_num`-zeroed 0/0 entries), take `np.log`. -/
noncomputable def arealAt (fid flat : List Vec3) (tris : List (ℕ × ℕ × ℕ))
    (v : ℕ) : ℝ :=
  let q := vertRatios fid flat tris v / (bincountAt tris v : ℝ)
  Real.log (if q = 0 then 1 else q)

/-- Areal distortion as the claim words it.  Modelled from the spec:
"natural log of (sum of flat-mesh triangle areas over triangles touching
the vertex, divided by sum of corresponding fiducial-mesh areas over the
same triangles)", with zero ratios replaced by 1 before the log. -/
noncomputable def arealClaim (fid flat : List Vec3) (tris : List (ℕ × ℕ × ℕ))
    (v : ℕ) : ℝ :=
  let touching := tris.filter fun t => v ∈ triL t
  let q := (touching.map (triArea flat)).sum / (touching.map (triArea fid)).sum
  Real.log (if q = 0 then 1 else q)

/-- Fiducial vertices of the C3 counterexample mesh. -/
def fid5 : List Vec3 :=
  [((0 : ℚ), 0, 0), (1, 0, 0), (0, 1, 0), (2, 1, 0), (0, 3, 0)]

/-- Flat vertices: triangle 0 is isometric, triangle 1 has 4× the area. -/
def flat5 : List Vec3 :=
  [((0 : ℚ), 0, 0), (1, 0, 0), (0, 1, 0), (4, 1, 0), (0, 5, 0)]

def tris5 : List (ℕ × ℕ × ℕ) := [(0, 1, 2), (2, 3, 4)]

/-- Unit square split into the two triangles (0,1,2) and (0,2,3): an
ISOMETRIC "flat" mapping (the flat mesh is identical to the fiducial
mesh), with vertex 0 appearing twice in triangle COLUMN 0. -/
def verts4 : List Vec3 :=
  [((0 : ℚ), 0, 0), (1, 0, 0), (1, 1, 0), (0, 1, 0)]

def tris4 : List (ℕ × ℕ × ℕ) := [(0, 1, 2), (0, 2, 3)]

/-! ### `make_surface_graph` / `iter_surfedges` and the Tissot sampler -/

/-- `iter_surfedges(tris)`: the edge stream `(a,b), (b,c), (a,c)` per
triangle. -/
def surfEdges (tris : List (ℕ × ℕ × ℕ)) : List (ℕ × ℕ) :=
  tris.flatMap fun t => [(t.1, t.2.1), (t.2.1, t.2.2), (t.1, t.2.2)]

/-- Adjacency of the undirected `networkx` graph built by
`graph.add_edges_from(iter_surfedges(tris))`. -/
def adjNx (tris : List (ℕ × ℕ × ℕ)) (a b : ℕ) : Prop :=
  (a, b) ∈ surfEdges tris ∨ (b, a) ∈ surfEdges tris

instance (tris : List (ℕ × ℕ × ℕ)) (a b : ℕ) : Decidable (adjNx tris a b) :=
  inferInstanceAs (Decidable (_ ∨ _))

/-- Neighbour list of a vertex in the networkx graph, in edge-insertion
order with duplicates skipped (the adjacency dict). -/
def addNbr (v : ℕ) (acc : List ℕ) (e : ℕ × ℕ) : List ℕ :=
  let acc1 := if e.1 = v ∧ e.2 ∉ acc then acc ++ [e.2] else acc
  if e.2 = v ∧ e.1 ∉ acc1 then acc1 ++ [e.1] else acc1

def nbrsOf (tris : List (ℕ × ℕ × ℕ)) (v : ℕ) : List ℕ :=
  (surfEdges tris).foldl (addNbr v) []

/-- One BFS level: expand every frontier node's unvisited neighbours,
recording the breadth-first path to each newly reached vertex. -/
def bfsStep (adj : ℕ → List ℕ) (acc frontier : List (ℕ × List ℕ)) :
    List (ℕ × List ℕ) :=
  frontier.foldl
    (fun nf vp =>
      (adj vp.1).foldl
        (fun nf2 w =>
          if (acc.map Prod.fst).contains w ∨ (nf2.map Prod.fst).contains w
          then nf2
          else nf2 ++ [(w, vp.2 ++ [w])])
        nf)
    []

def bfsAux (adj : ℕ → List ℕ) : ℕ → List (ℕ × List ℕ) → List (ℕ × List ℕ) →
    List (ℕ × List ℕ)
  | 0, acc, _ => acc
  | Nat.succ n, acc, frontier =>
      let nf := bfsStep adj acc frontier
      bfsAux adj n (acc ++ nf) nf

/-- `nx.algorithms.single_source_shortest_path(G, src, cutoff)`: for every
vertex within `cutoff` hops of `src`, a fewest-hop path from `src` to it
(ties broken by adjacency order). -/
def bfsPaths (adj : ℕ → List ℕ) (src : ℕ) (cutoff : ℕ) :
    List (ℕ × List ℕ) :=
  bfsAux adj cutoff [(src, [src])] [(src, [src])]

/-- Dictionary access `paths[cv]` (`cv in paths` when it is `some`). -/
def lookupPath (paths : List (ℕ × List ℕ)) (v : ℕ) : Option (List ℕ) :=
  (paths.find? fun pr => pr.1 == v).map Prod.snd

/-- `get_path_len_mm` / `memo_get_path_len_mm`: world length of a path,
the sum of the Euclidean lengths of its hops (memoisation is semantically
transparent). -/
noncomputable def pathLenMM (verts : ℕ → Vec3) : List ℕ → ℝ
  | [] => 0
  | [_] => 0
  | a :: b :: rest =>
      Real.sqrt (sqdist (verts a) (verts b)) + pathLenMM verts (b :: rest)

/-- The per-hemisphere sampler state: accepted centers, consecutive-failure
counter, accumulator array. -/
structure TissotState where
  centers : List ℕ
  numfails : ℕ
  tissot : ℕ → ℝ

/-- Weight painting after an accepted center: for every vertex reached by
the `radius*2`-hop search, add `tanh(radius - dist)/2 + 0.5`. -/
noncomputable def paintDisc (adj : ℕ → List ℕ) (verts : ℕ → Vec3)
    (radius : ℕ) (t : ℕ → ℝ) (c : ℕ) : ℕ → ℝ :=
  fun v =>
    match lookupPath (bfsPaths adj c (radius * 2)) v with
    | some p => t v + (Real.tanh ((radius : ℝ) - pathLenMM verts p) / 2 + 1 / 2)
    | none => t v

/-- The rejection test: some previously accepted center is found by the
`spacing/2 + 20`-hop search (integer division, as in Python 2) and the
world length of the recovered breadth-first path to it is below
`spacing`. -/
def scrapped (adj : ℕ → List ℕ) (verts : ℕ → Vec3) (spacing : ℕ)
    (centers : List ℕ) (c : ℕ) : Prop :=
  ∃ cv ∈ centers, ∃ p,
    lookupPath (bfsPaths adj c (spacing / 2 + 20)) cv = some p ∧
      pathLenMM verts p < (spacing : ℝ)

/-- One iteration of the sampling loop on a candidate vertex `c` (the
`np.random.randint` draw enters as the candidate). -/
inductive TissotStep (adj : ℕ → List ℕ) (verts : ℕ → Vec3)
    (radius spacing : ℕ) : TissotState → ℕ → TissotState → Prop
  | reject (s : TissotState) (c : ℕ)
      (h : scrapped adj verts spacing s.centers c) :
      TissotStep adj verts radius spacing s c
        ⟨s.centers, s.numfails + 1, s.tissot⟩
  | accept (s : TissotState) (c : ℕ)
      (h : ¬ scrapped adj verts spacing s.centers c) :
      TissotStep adj verts radius spacing s c
        ⟨s.centers ++ [c], 0, paintDisc adj verts radius s.tissot c⟩

/-- The `while numfails < maxfails` loop, consuming a stream of random
candidates. -/
inductive TissotRun (adj : ℕ → List ℕ) (verts : ℕ → Vec3)
    (radius spacing maxfails : ℕ) :
    TissotState → List ℕ → TissotState → Prop
  | nil (s : TissotState) : TissotRun adj verts radius spacing maxfails s [] s
  | stop (s : TissotState) (cands : List ℕ) (h : maxfails ≤ s.numfails) :
      TissotRun adj verts radius spacing maxfails s cands s
  | step (s : TissotState) (c : ℕ) (s2 : TissotState) (cs : List ℕ)
      (s3 : TissotState) (h : s.numfails < maxfails)
      (hstep : TissotStep adj verts radius spacing s c s2)
      (hrun : TissotRun adj verts radius spacing maxfails s2 cs s3) :
      TissotRun adj verts radius spacing maxfails s (c :: cs) s3

/-- The separation property the loop actually maintains: for every pair of
accepted centers, if the EARLIER one is found by the hop-limited
breadth-first search from the LATER one, the world length of the recovered
breadth-first path is at least `spacing`. -/
def SepOK (adj : ℕ → List ℕ) (verts : ℕ → Vec3) (spacing : ℕ)
    (centers : List ℕ) : Prop :=
  ∀ i j (hi : i < centers.length) (hj : j < centers.length), i < j →
    ∀ p, lookupPath (bfsPaths adj (centers.get ⟨j, hj⟩) (spacing / 2 + 20))
        (centers.get ⟨i, hi⟩) = some p →
      (spacing : ℝ) ≤ pathLenMM verts p

/-- A path/graph predicate: consecutive vertices are adjacent in the
triangle graph.  A path between two accepted centers with world length
below `spacing` shows their (weighted) shortest-path distance is below
`spacing`. -/
def IsGraphPath (tris : List (ℕ × ℕ × ℕ)) (p : List ℕ) : Prop :=
  List.Chain' (adjNx tris) p

/-- Executable check for `IsGraphPath` (the library `Chain'` instance does
not reduce in the kernel). -/
def isGraphPathB (tris : List (ℕ × ℕ × ℕ)) : List ℕ → Bool
  | [] => true
  | [_] => true
  | a :: b :: rest => decide (adjNx tris a b) && isGraphPathB tris (b :: rest)

/-- A 49-vertex triangle strip (i, i+1, i+2) along a line, with 0.1 mm
vertex spacing: graph hops move at most 2 vertices, so vertex 0 is 24 hops
from vertex 48, beyond the `spacing/2 + 20 = 23`-hop search cutoff for
`spacing = 6`, while the world distance along the strip is only 4.8 mm. -/
def tris48 : List (ℕ × ℕ × ℕ) := (List.range 47).map fun i => (i, i + 1, i + 2)

def verts48 : ℕ → Vec3 := fun i => ((i : ℚ) / 10, 0, 0)

def adj48 : ℕ → List ℕ := nbrsOf tris48

/-- The even-vertex path 0, 2, 4, …, 48. -/
def evenPath : List ℕ := (List.range 25).map fun k => k * 2

/-- Final state of the concrete two-candidate run. -/
noncomputable def finalC5 : TissotState :=
  ⟨[0, 48], 0,
    paintDisc adj48 verts48 10 (paintDisc adj48 verts48 10 (fun _ => 0) 0) 48⟩

/-- Arithmetic-progression path `a*2, (a+1)*2, …` of `m` hops. -/
def listFrom (a : ℕ) : ℕ → List ℕ
  | 0 => [a * 2]
  | Nat.succ m => a * 2 :: listFrom (a + 1) m

/-- Tiny mesh for the C5 witness. -/
def trisW : List (ℕ × ℕ × ℕ) := [(0, 1, 2)]

def adjW : ℕ → List ℕ := nbrsOf trisW

def vertsW : ℕ → Vec3 := fun i => ((i : ℚ), 0, 0)

noncomputable def finalW : TissotState :=
  ⟨[0, 1], 0,
    paintDisc adjW vertsW 10 (paintDisc adjW vertsW 10 (fun _ => 0) 0) 1⟩

/-! ### Theorems -/

lemma sqdist_nonneg (a b : Vec3) : 0 ≤ sqdist a b := by
  unfold sqdist
  positivity

lemma sqdist_self (a : Vec3) : sqdist a a = 0 := by
  unfold sqdist
  ring

lemma inv4_id : inv4 idMat4 = idMat4 := by
  funext i j
  fin_cases i <;> fin_cases j <;>
    simp +decide only [inv4, minor4, det4, det3, others, idMat4] <;> norm_num

lemma mem_voxGrid {shape : ℕ × ℕ × ℕ} {v : ℕ × ℕ × ℕ} :
    v ∈ voxGrid shape ↔ v.1 < shape.1 ∧ v.2.1 < shape.2.1 ∧ v.2.2 < shape.2.2 := by
  obtain ⟨i, j, k⟩ := v
  simp [voxGrid]
  aesop

/-! Specification of the scan `tq`. -/

lemma tq_fst_le (q : Vec3) :
    ∀ (l : List Vec3) (best : ℚ × ℕ) (i : ℕ), (tq q l best i).1 ≤ best.1 := by
  intro l
  induction l with
  | nil => intro best i; simp [tq]
  | cons v rest ih =>
      intro best i
      simp only [tq]
      by_cases h : sqdist q v < best.1
      · simp only [h, if_pos]
        exact le_trans (le_of_le_of_eq (ih _ _) rfl) (le_of_lt h)
      · simp only [h, if_neg, not_false_iff]
        exact ih _ _

lemma tq_le_mem (q : Vec3) :
    ∀ (l : List Vec3) (best : ℚ × ℕ) (i : ℕ) (w : Vec3), w ∈ l →
      (tq q l best i).1 ≤ sqdist q w := by
  intro l
  induction l with
  | nil => intro best i w hw; simp at hw
  | cons v rest ih =>
      intro best i w hw
      rcases List.mem_cons.mp hw with h | h
      · subst h
        simp only [tq]
        by_cases hlt : sqdist q w < best.1
        · simp only [hlt, if_pos]
          exact le_trans (tq_fst_le q rest _ _) le_rfl
        · simp only [hlt, if_neg, not_false_iff]
          exact le_trans (tq_fst_le q rest _ _) (not_lt.mp hlt)
      · simp only [tq]
        exact ih _ _ _ h

/-- The running best is always achieved by an actual vertex: if the initial
best is achieved at its recorded index, so is the result. -/
lemma tq_achieved (q : Vec3) (fid : List Vec3) :
    ∀ (l : List Vec3) (i : ℕ) (best : ℚ × ℕ),
      List.drop i fid = l →
      best.2 < fid.length →
      (∀ h : best.2 < fid.length, sqdist q (fid.get ⟨best.2, h⟩) = best.1) →
      (tq q l best i).2 < fid.length ∧
        ∀ h : (tq q l best i).2 < fid.length,
          sqdist q (fid.get ⟨(tq q l best i).2, h⟩) = (tq q l best i).1 := by
  intro l
  induction l with
  | nil =>
      intro i best _ hlt hach
      exact ⟨hlt, hach⟩
  | cons v rest ih =>
      intro i best hdrop hlt hach
      have hi : i < fid.length := by
        by_contra hge
        rw [List.drop_eq_nil_of_le (not_lt.mp hge)] at hdrop
        exact List.cons_ne_nil _ _ hdrop.symm
      have hcons := List.drop_eq_getElem_cons (l := fid) hi
      rw [hdrop] at hcons
      obtain ⟨hveq, hrest0⟩ := List.cons_eq_cons.mp hcons
      have hrest : List.drop (i + 1) fid = rest := hrest0.symm
      simp only [tq]
      by_cases hc : sqdist q v < best.1
      · simp only [hc, if_pos]
        refine ih (i + 1) (sqdist q v, i) hrest hi ?_
        intro h
        simp [List.get_eq_getElem, ← hveq]
      · simp only [hc, if_neg, not_false_iff]
        exact ih (i + 1) best hrest hlt hach

/-- Full specification of `tree_query` on a nonempty vertex list: the
returned index is in range, its vertex achieves the returned squared
distance, and no vertex is closer. -/
lemma tree_query_spec (fid : List Vec3) (q : Vec3) (hne : fid ≠ []) :
    (tree_query fid q).2 < fid.length ∧
      (∀ h : (tree_query fid q).2 < fid.length,
        sqdist q (fid.get ⟨(tree_query fid q).2, h⟩) = (tree_query fid q).1) ∧
      ∀ w ∈ fid, (tree_query fid q).1 ≤ sqdist q w := by
  match fid, hne with
  | v :: rest, _ =>
      have hdrop : List.drop 1 (v :: rest) = rest := rfl
      have hach := tq_achieved q (v :: rest) rest 1 (sqdist q v, 0) hdrop
        (by simp) (by intro h; simp)
      refine ⟨hach.1, hach.2, ?_⟩
      intro w hw
      rcases List.mem_cons.mp hw with h | h
      · subst h
        exact le_trans (tq_fst_le q rest _ _) le_rfl
      · exact tq_le_mem q rest _ _ _ h

lemma mulVec4_id (w : Fin 4 → ℚ) : mulVec4 idMat4 w = w := by
  funext i
  fin_cases i <;> simp +decide [mulVec4, idMat4]

lemma worldCoord_id (v : ℕ × ℕ × ℕ) :
    worldCoord idMat4 v = ((v.2.2 : ℚ), (v.2.1 : ℚ), (v.1 : ℚ)) := by
  simp [worldCoord, inv4_id, mulVec4_id, homRev]

lemma worldCoordClaim_id (v : ℕ × ℕ × ℕ) :
    worldCoordClaim idMat4 v = ((v.1 : ℚ), (v.2.1 : ℚ), (v.2.2 : ℚ)) := by
  simp [worldCoordClaim, inv4_id, mulVec4_id, homSpec]

/-- C1 (amended): for every voxel of the grid and nonempty vertex list, the
distance `get_vox_dist` reports equals the Euclidean distance from the
voxel's world coordinate — obtained by REVERSING the voxel index triple,
appending a 1 and applying the 4×4 inverse affine — to the vertex at the
reported nearest-vertex index, and no vertex of the concatenated
fiducial-mesh list is closer to that world coordinate.  (The claim's
unreversed transform is refuted by `vox_dist_claim_counterexample`.) -/
theorem vox_dist_correct (xfm : Mat4) (fid : List Vec3) (shape : ℕ × ℕ × ℕ)
    (v : ℕ × ℕ × ℕ) (_hv : v ∈ voxGrid shape) (hne : fid ≠ []) :
    (vox_dist xfm fid v).2 < fid.length ∧
      (∀ h : (vox_dist xfm fid v).2 < fid.length,
        vox_dist_mm xfm fid v =
          edist (worldCoord xfm v) (fid.get ⟨(vox_dist xfm fid v).2, h⟩)) ∧
      ∀ w ∈ fid, vox_dist_mm xfm fid v ≤ edist (worldCoord xfm v) w := by
  obtain ⟨h1, h2, h3⟩ := tree_query_spec fid (worldCoord xfm v) hne
  refine ⟨h1, ?_, ?_⟩
  · intro h
    unfold vox_dist_mm edist
    have := h2 h
    simp only [vox_dist] at this ⊢
    rw [this]
  · intro w hw
    unfold vox_dist_mm edist
    apply Real.sqrt_le_sqrt
    exact_mod_cast h3 w hw

/-- Witness for C1's amended theorem at a concrete input: a 1×1×1 grid, the
identity affine and a single vertex at the origin. -/
theorem vox_dist_correct_witness :
    (((0, 0, 0) : ℕ × ℕ × ℕ) ∈ voxGrid (1, 1, 1) ∧
        ([((0 : ℚ), 0, 0)] : List Vec3) ≠ []) ∧
      (vox_dist idMat4 [((0 : ℚ), 0, 0)] (0, 0, 0)).2 < 1 := by
  refine ⟨⟨by decide, by decide⟩, ?_⟩
  have h := vox_dist_correct idMat4 [((0 : ℚ), 0, 0)] (1, 1, 1) (0, 0, 0)
    (by decide) (by decide)
  simpa using h.1

/-- C1 counterexample: with the identity affine, a 1×1×2 grid and the single
vertex (1,0,0), the voxel (0,0,1) gets reported distance 0 (the code
transforms the REVERSED index (1,0,0)), while the minimum distance from the
claim's world coordinate (index (0,0,1) un-reversed, as the claim words the
transform) to the vertex set is √2 ≠ 0.  So the claim, read as stated, is
false at this input. -/
theorem vox_dist_claim_counterexample :
    (((0, 0, 1) : ℕ × ℕ × ℕ) ∈ voxGrid (1, 1, 2) ∧
        vox_dist_mm idMat4 [((1 : ℚ), 0, 0)] (0, 0, 1) = 0) ∧
      edist (worldCoordClaim idMat4 (0, 0, 1)) ((1 : ℚ), 0, 0) = Real.sqrt 2 ∧
      (0 : ℝ) ≠ Real.sqrt 2 := by
  have hw : worldCoord idMat4 (0, 0, 1) = ((1 : ℚ), 0, 0) := by
    rw [worldCoord_id]
    norm_num
  have hwc : worldCoordClaim idMat4 (0, 0, 1) = ((0 : ℚ), 0, 1) := by
    rw [worldCoordClaim_id]
    norm_num
  refine ⟨⟨by decide, ?_⟩, ?_, ?_⟩
  · unfold vox_dist_mm vox_dist
    rw [hw]
    norm_num [tree_query, tq, sqdist]
  · rw [hwc]
    unfold edist
    norm_num [sqdist]
  · have : (0 : ℝ) < Real.sqrt 2 := Real.sqrt_pos.mpr (by norm_num)
    exact ne_of_lt this

/-- The returned squared distance is nonnegative. -/
lemma tree_query_fst_nonneg (fid : List Vec3) (q : Vec3) :
    0 ≤ (tree_query fid q).1 := by
  cases fid with
  | nil => simp [tree_query]
  | cons v rest =>
      have h := tree_query_spec (v :: rest) q (by simp)
      have h2 := h.2.1 h.1
      rw [← h2]
      exact sqdist_nonneg _ _

lemma voxSqAt_nonneg (inp : RoiIn) (v : ℕ × ℕ × ℕ) : 0 ≤ voxSqAt inp v :=
  tree_query_fst_nonneg _ _

/-- The decidable `cxAt` agrees with the float comparison in the source. -/
lemma cxAt_iff (inp : RoiIn) (Dst : ℚ) (v : ℕ × ℕ × ℕ) :
    cxAt inp Dst v = true ↔ Real.sqrt (voxSqAt inp v : ℝ) < (Dst : ℝ) := by
  unfold cxAt
  rw [decide_eq_true_iff]
  have hnn : (0 : ℝ) ≤ (voxSqAt inp v : ℝ) := by
    exact_mod_cast voxSqAt_nonneg inp v
  constructor
  · rintro ⟨h1, h2⟩
    have h1r : (0 : ℝ) < (Dst : ℝ) := by exact_mod_cast h1
    rw [show ((Dst : ℝ)) = Real.sqrt ((Dst : ℝ) ^ 2) from
      (Real.sqrt_sq h1r.le).symm]
    apply Real.sqrt_lt_sqrt hnn
    exact_mod_cast h2
  · intro h
    have hs : (0 : ℝ) ≤ Real.sqrt (voxSqAt inp v : ℝ) := Real.sqrt_nonneg _
    have hD : (0 : ℝ) < (Dst : ℝ) := lt_of_le_of_lt hs h
    refine ⟨by exact_mod_cast hD, ?_⟩
    have hsq : (voxSqAt inp v : ℝ) < (Dst : ℝ) ^ 2 := by
      calc (voxSqAt inp v : ℝ) = Real.sqrt (voxSqAt inp v : ℝ) ^ 2 := by
            rw [Real.sq_sqrt hnn]
        _ < (Dst : ℝ) ^ 2 := by
            apply pow_lt_pow_left₀ h hs
            norm_num
    exact_mod_cast hsq

lemma vox_dist_id (fid : List Vec3) (v : ℕ × ℕ × ℕ) :
    vox_dist idMat4 fid v =
      tree_query fid ((v.2.2 : ℚ), (v.2.1 : ℚ), (v.1 : ℚ)) := by
  unfold vox_dist
  rw [worldCoord_id]

lemma inpC2_voxIdx : voxIdxAt inpC2 (0, 0, 0) = 0 := by
  show (vox_dist idMat4 (inpC2.fidL ++ inpC2.fidR) (0, 0, 0)).2 = 0
  rw [vox_dist_id]
  norm_num [inpC2, tree_query, tq, sqdist]

lemma inpC2_voxSq : voxSqAt inpC2 (0, 0, 0) = 0 := by
  show (vox_dist idMat4 (inpC2.fidL ++ inpC2.fidR) (0, 0, 0)).1 = 0
  rw [vox_dist_id]
  norm_num [inpC2, tree_query, tq, sqdist]

lemma inpC2_lmask : lmaskAt inpC2 (0, 0, 0) = true := by
  unfold lmaskAt
  rw [inpC2_voxIdx]
  decide

lemma inpC2_cx : cxAt inpC2 2 (0, 0, 0) = true := by
  simp only [cxAt, inpC2_voxSq]
  norm_num

/-- C2: the single voxel of `inpC2` is a candidate member of both requested
ROIs "A" and "B" in the left hemisphere, so under the claim (and the
source's own comment and "%d voxels cut" report) it must become 0.  The
code instead executes `tmpMask[toCut] = False` with a (nVox, 2) boolean
index against the (nVox, nROI, 2) array, which clears ROI 0 (not the
voxel's ROI memberships), leaving ROI "B" assigned: the mask value is -2,
not 0.  This evaluates the embedded code at the failing input. -/
theorem roi_masks_cut_overlap_bug :
    (roi_masks inpC2 ["A", "B"] 2 "cut").1 = [-2] ∧ ([-2] : List ℤ) ≠ [0] := by
  constructor
  · have hg : voxGrid inpC2.shape = [(0, 0, 0)] := by decide
    simp only [roi_masks, hg, List.map_cons, List.map_nil, inpC2_voxIdx,
      inpC2_lmask, inpC2_cx]
    decide
  · decide

/-- C6 (amended): with any overlap policy other than `'cut'` (in particular
`'split'`), `get_roi_masks` silently returns the untouched all-zero
(flat, un-reshaped) mask and an empty `roiIdx` mapping: the
`elif overlapOpt=='split': pass` branch skips overlap resolution and
assignment entirely and no error is raised. -/
theorem roi_masks_split_noop (inp : RoiIn) (roiList : List String) (Dst : ℚ)
    (opt : String) (h : opt ≠ "cut") :
    roi_masks inp roiList Dst opt =
      (List.replicate (inp.shape.1 * inp.shape.2.1 * inp.shape.2.2) 0, []) := by
  simp only [roi_masks, if_neg h]

/-- Witness for C6's amended theorem at a concrete input. -/
theorem roi_masks_split_noop_witness :
    ("split" : String) ≠ "cut" ∧
      roi_masks inpC2 ["A", "B"] 2 "split" = (List.replicate 1 0, []) :=
  ⟨by decide, roi_masks_split_noop inpC2 ["A", "B"] 2 "split" (by decide)⟩

/-- C6 counterexample: the claim says a `'split'` call raises an
"unsupported" error and never returns a result with the assignment steps
skipped.  At this concrete input the call returns normally with an all-zero
mask and empty ROI mapping, even though the same input under `'cut'`
produces a populated ROI mapping — the steps were silently skipped, no
error exists in the code. -/
theorem roi_masks_split_counterexample :
    roi_masks inpC2 ["A", "B"] 2 "split" = ([0], []) ∧
      (roi_masks inpC2 ["A", "B"] 2 "cut").2 = [("A", 1), ("B", 2)] := by
  constructor
  · simp only [roi_masks, if_neg (show ¬("split" : String) = "cut" by decide)]
    decide
  · simp only [roi_masks, if_pos (show ("cut" : String) = "cut" from rfl)]
    decide

lemma inpC4_voxIdx : voxIdxAt inpC4 (0, 0, 0) = 3 := by
  show (vox_dist idMat4 (inpC4.fidL ++ inpC4.fidR) (0, 0, 0)).2 = 3
  rw [vox_dist_id]
  norm_num [inpC4, tree_query, tq, sqdist]

/-- C4 counterexample: nearest-vertex index 3 is an index of a left
fiducial vertex (3 < 4 = left vertex count), but the code's `Lmask`
boundary is `nL = 3` (distinct flat-triangle vertices), so the voxel is
excluded from the left mask and lands in the right mask — refuting the
claim's "every voxel with nearest-vertex index below the left-hemisphere
vertex count is in the left mask" at a concrete input. -/
theorem hemi_partition_counterexample :
    voxIdxAt inpC4 (0, 0, 0) = 3 ∧ inpC4.fidL.length = 4 ∧
      lmaskAt inpC4 (0, 0, 0) = false ∧ rmaskAt inpC4 (0, 0, 0) = true := by
  refine ⟨inpC4_voxIdx, by decide, ?_, ?_⟩
  · unfold lmaskAt
    rw [inpC4_voxIdx]
    decide
  · unfold rmaskAt lmaskAt
    rw [inpC4_voxIdx]
    decide

/-- C4 (amended): the hemisphere partition compares the nearest-vertex
index against `nL`, the number of DISTINCT vertex indices in the left flat
triangle list; when every left vertex occurs in some left flat triangle
(`nL` equals the left vertex count) this is exactly the claim's boundary,
and the two masks are mutually exclusive and exhaustive over all voxels. -/
theorem hemi_partition_amended (inp : RoiIn) (v : ℕ × ℕ × ℕ)
    (hnL : nLflat inp.Lpolys = inp.fidL.length) :
    (lmaskAt inp v = true ↔ voxIdxAt inp v < inp.fidL.length) ∧
      (rmaskAt inp v = true ↔ ¬ lmaskAt inp v = true) ∧
      (lmaskAt inp v = true ∨ rmaskAt inp v = true) ∧
      ¬(lmaskAt inp v = true ∧ rmaskAt inp v = true) := by
  unfold rmaskAt lmaskAt
  rw [hnL]
  refine ⟨by simp, by simp, ?_, by simp⟩
  by_cases h : voxIdxAt inp v < inp.fidL.length
  · left
    simpa using h
  · right
    simpa using h

/-- Witness for C4's amended theorem: `inpC2`'s left flat triangle covers
all three left vertices, so the boundary equals the left vertex count. -/
theorem hemi_partition_amended_witness :
    nLflat inpC2.Lpolys = inpC2.fidL.length ∧
      (lmaskAt inpC2 (0, 0, 0) = true ↔
        voxIdxAt inpC2 (0, 0, 0) < inpC2.fidL.length) :=
  ⟨by decide, (hemi_partition_amended inpC2 (0, 0, 0) (by decide)).1⟩

/-- C8: the curvature smoother at radius 0 (`smooth == 0`) returns the raw
curvature array unchanged, exactly, for every mesh and raw input. -/
theorem curvature_smooth_zero (verts : List Vec3) (polys : List (ℕ × ℕ × ℕ))
    (curv : ℕ → ℝ) (nbhd : ℕ) :
    get_curvature_hemi verts polys curv 0 nbhd = curv := by
  simp [get_curvature_hemi]

/-- C7 (amended): with smoothing enabled, every vertex with a nonempty
neighbourhood receives the arithmetic MEAN over its neighbourhood of
weight·curvature — the sum of `exp(-‖Δpos‖²/(2·smooth²)) * curv` divided by
the neighbour COUNT (`.mean()`), not by the sum of the weights; vertices
with an empty neighbourhood keep 0. -/
theorem curvature_smoothing_amended (verts : List Vec3)
    (polys : List (ℕ × ℕ × ℕ)) (curv : ℕ → ℝ) (smooth : ℚ) (nbhd i : ℕ)
    (hs : smooth ≠ 0) :
    get_curvature_hemi verts polys curv smooth nbhd i =
      if (getpts polys i nbhd).Nonempty then
        (∑ j in getpts polys i nbhd,
            gaussW smooth (verts.getD j (0, 0, 0)) (verts.getD i (0, 0, 0)) *
              curv j) / (getpts polys i nbhd).card
      else 0 := by
  unfold get_curvature_hemi smooth_curv
  rw [if_neg hs]
  set s := getpts polys i nbhd with hg
  set f : ℕ → ℝ := fun j =>
    gaussW smooth (verts.getD j (0, 0, 0)) (verts.getD i (0, 0, 0)) * curv j
    with hf
  have hperm : List.Perm ((s.sort (· ≤ ·)).map f) (s.toList.map f) :=
    (Finset.sort_perm_toList (· ≤ ·) s).map f
  have hsum : ((s.sort (· ≤ ·)).map f).sum = ∑ j in s, f j := by
    rw [hperm.sum_eq, Finset.sum_to_list]
  have hlen : (s.sort (· ≤ ·)).length = s.card := Finset.length_sort _
  by_cases hne : s.Nonempty
  · rw [if_pos hne, if_neg (by rw [hlen]; exact Finset.card_ne_zero.mpr hne)]
    rw [hsum, hlen]
  · have hz : (s.sort (· ≤ ·)).length = 0 := by
      rw [hlen]
      exact Finset.card_eq_zero.mpr (Finset.not_nonempty_iff_eq_empty.mp hne)
    rw [if_neg hne, if_pos hz]

lemma getpts3 : getpts polys3 0 3 = Finset.range 3 := by decide

lemma sort3 : (getpts polys3 0 3).sort (· ≤ ·) = [0, 1, 2] := by
  rw [getpts3, Finset.sort_range]
  rfl

lemma lhs_c7 : get_curvature_hemi verts3 polys3 curvC7 8 3 0 = 1 / 3 := by
  unfold get_curvature_hemi smooth_curv
  rw [if_neg (by norm_num : (8 : ℚ) ≠ 0)]
  simp only [sort3]
  norm_num [curvC7, gaussW, verts3, sqdist, Real.exp_zero]

lemma rhs_c7 : gaussAvgClaim verts3 polys3 curvC7 8 3 0 =
    1 / (1 + 2 * Real.exp (-(1 / 128 : ℝ))) := by
  unfold gaussAvgClaim
  simp only [sort3]
  norm_num [curvC7, gaussW, verts3, sqdist, Real.exp_zero]
  ring_nf

/-- C7 counterexample: on the one-triangle mesh with raw curvature
(1, 0, 0) and default parameters, vertex 0's code value is
(1 + g·0 + g·0)/3 = 1/3, while the claimed Gaussian-weighted average is
1/(1 + 2g) with g = exp(−1/128) < 1, which is strictly greater than 1/3.
The code divides by the neighbour count, not by the weight sum, so the
claim fails at this concrete input. -/
theorem curvature_weighting_counterexample :
    get_curvature_hemi verts3 polys3 curvC7 8 3 0 ≠
      gaussAvgClaim verts3 polys3 curvC7 8 3 0 := by
  rw [lhs_c7, rhs_c7]
  have hg0 : 0 < Real.exp (-(1 / 128 : ℝ)) := Real.exp_pos _
  have hg1 : Real.exp (-(1 / 128 : ℝ)) < 1 := by
    rw [Real.exp_lt_one_iff]
    norm_num
  have hlt : (1 : ℝ) + 2 * Real.exp (-(1 / 128 : ℝ)) < 3 := by nlinarith
  have hpos : (0 : ℝ) < 1 + 2 * Real.exp (-(1 / 128 : ℝ)) := by nlinarith
  have : (1 : ℝ) / 3 < 1 / (1 + 2 * Real.exp (-(1 / 128 : ℝ))) := by
    apply one_div_lt_one_div_of_lt hpos hlt
  exact ne_of_lt this

/-- Witness for C7's amended theorem at a concrete input. -/
theorem curvature_smoothing_amended_witness :
    (8 : ℚ) ≠ 0 ∧
      get_curvature_hemi verts3 polys3 curvC7 8 3 0 =
        if (getpts polys3 0 3).Nonempty then
          (∑ j in getpts polys3 0 3,
              gaussW 8 (verts3.getD j (0, 0, 0)) (verts3.getD 0 (0, 0, 0)) *
                curvC7 j) / (getpts polys3 0 3).card
        else 0 :=
  ⟨by norm_num, curvature_smoothing_amended verts3 polys3 curvC7 8 3 0 (by norm_num)⟩

lemma lastHit_mem {α : Type} (l : List (ℕ × α)) (v : ℕ)
    (h : lastHit l v ≠ none) : v ∈ l.map Prod.fst := by
  induction l with
  | nil => simp [lastHit] at h
  | cons p rest ih =>
      simp only [lastHit] at h
      cases hr : lastHit rest v with
      | some y =>
          simp only [List.map_cons]
          exact List.mem_cons_of_mem _ (ih (by simp [hr]))
      | none =>
          rw [hr] at h
          by_cases hp : p.1 = v
          · simp only [List.map_cons]
            exact hp ▸ List.mem_cons_self _ _
          · simp [hp] at h

/-- For an injective index list (the last write is the only write), the
scatter contribution equals the sum of per-position indicator values. -/
lemma lastHit_nodup_sum (l : List (ℕ × ℝ)) (hl : (l.map Prod.fst).Nodup)
    (v : ℕ) :
    (lastHit l v).getD 0 = (l.map fun p => if p.1 = v then p.2 else 0).sum := by
  induction l with
  | nil => simp [lastHit]
  | cons p rest ih =>
      simp only [List.map_cons, List.nodup_cons] at hl
      obtain ⟨hnotin, hnd⟩ := hl
      simp only [lastHit, List.map_cons, List.sum_cons]
      cases hr : lastHit rest v with
      | some y =>
          have hv : v ∈ rest.map Prod.fst := lastHit_mem rest v (by simp [hr])
          have hp : ¬ p.1 = v := fun he => hnotin (he ▸ hv)
          have hy : y = (rest.map fun q => if q.1 = v then q.2 else 0).sum := by
            have h2 := ih hnd
            rw [hr] at h2
            simpa using h2
          simp [hp, hy]
      | none =>
          have h2 := ih hnd
          rw [hr] at h2
          simp only [Option.getD_none] at h2
          by_cases hp : p.1 = v
          · simp [hp, ← h2]
          · simp [hp, ← h2]

lemma scatAdd_col (acc : ℕ → ℝ) (tris : List (ℕ × ℕ × ℕ))
    (r : (ℕ × ℕ × ℕ) → ℝ) (tc : (ℕ × ℕ × ℕ) → ℕ)
    (hnd : (tris.map tc).Nodup) (v : ℕ) :
    scatAdd acc (tris.map tc) (tris.map r) v =
      acc v + (tris.map fun t => if tc t = v then r t else 0).sum := by
  unfold scatAdd
  rw [List.zip_map' tc r]
  rw [lastHit_nodup_sum _ (by simpa [List.map_map, Function.comp] using hnd) v]
  rw [List.map_map]
  rfl

lemma sum_map_ite_filter {α : Type} (l : List α) (p : α → Prop)
    [DecidablePred p] (f : α → ℝ) :
    (l.map fun t => if p t then f t else 0).sum =
      ((l.filter fun t => decide (p t)).map f).sum := by
  induction l with
  | nil => simp
  | cons a rest ih =>
      by_cases hpa : p a <;> simp [List.filter_cons, hpa, ih]

lemma count_triL (t : ℕ × ℕ × ℕ) (v : ℕ)
    (h : t.1 ≠ t.2.1 ∧ t.1 ≠ t.2.2 ∧ t.2.1 ≠ t.2.2) :
    (triL t).count v = if v ∈ triL t then 1 else 0 := by
  obtain ⟨h12, h13, h23⟩ := h
  by_cases e1 : v = t.1
  · subst e1
    simp [triL, List.count_cons, h12, h13]
  · by_cases e2 : v = t.2.1
    · subst e2
      simp [triL, List.count_cons, Ne.symm h12, h23]
    · by_cases e3 : v = t.2.2
      · subst e3
        simp [triL, List.count_cons, Ne.symm h13, Ne.symm h23]
      · simp [triL, List.count_cons, e1, e2, e3]

lemma bincountAt_filter (tris : List (ℕ × ℕ × ℕ)) (v : ℕ)
    (hdist : ∀ t ∈ tris, t.1 ≠ t.2.1 ∧ t.1 ≠ t.2.2 ∧ t.2.1 ≠ t.2.2) :
    bincountAt tris v = (tris.filter fun t => decide (v ∈ triL t)).length := by
  unfold bincountAt
  induction tris with
  | nil => simp
  | cons t rest ih =>
      have hd := hdist t (List.mem_cons_self _ _)
      have hrest := fun u hu => hdist u (List.mem_cons_of_mem _ hu)
      rw [List.flatMap_cons, List.count_append, count_triL t v hd,
        List.filter_cons, ih hrest]
      by_cases hv : v ∈ triL t
      · simp [hv, Nat.add_comm]
      · simp [hv]

lemma ite_col_sum (t : ℕ × ℕ × ℕ) (v : ℕ) (r : (ℕ × ℕ × ℕ) → ℝ)
    (h : t.1 ≠ t.2.1 ∧ t.1 ≠ t.2.2 ∧ t.2.1 ≠ t.2.2) :
    ((if t.1 = v then r t else 0) + ((if t.2.1 = v then r t else 0) +
        (if t.2.2 = v then r t else 0))) =
      if v ∈ triL t then r t else 0 := by
  obtain ⟨h12, h13, h23⟩ := h
  by_cases e1 : v = t.1
  · subst e1
    simp [triL, Ne.symm h12, Ne.symm h13]
  · by_cases e2 : v = t.2.1
    · subst e2
      simp [triL, h12, Ne.symm h23]
    · by_cases e3 : v = t.2.2
      · subst e3
        simp [triL, h13, h23]
      · simp [triL, Ne.symm e1, Ne.symm e2, Ne.symm e3, e1, e2, e3]

/-- The accumulated ratio at a vertex equals the plain sum of the
per-triangle ratios over the triangles touching it, provided no vertex
occurs twice in the same triangle column and triangles are nondegenerate
in their indices. -/
lemma vertRatios_eq_sum (fid flat : List Vec3) (tris : List (ℕ × ℕ × ℕ))
    (hnd0 : (tris.map fun t => t.1).Nodup)
    (hnd1 : (tris.map fun t => t.2.1).Nodup)
    (hnd2 : (tris.map fun t => t.2.2).Nodup)
    (hdist : ∀ t ∈ tris, t.1 ≠ t.2.1 ∧ t.1 ≠ t.2.2 ∧ t.2.1 ≠ t.2.2)
    (v : ℕ) :
    vertRatios fid flat tris v =
      (((tris.filter fun t => decide (v ∈ triL t)).map
        fun t => triArea flat t / triArea fid t).sum) := by
  set r : (ℕ × ℕ × ℕ) → ℝ := fun t => triArea flat t / triArea fid t with hr
  unfold vertRatios
  rw [show ratiosOf fid flat tris = tris.map r from rfl]
  rw [scatAdd_col _ tris r _ hnd2 v, scatAdd_col _ tris r _ hnd1 v,
    scatAdd_col _ tris r _ hnd0 v, zero_add]
  rw [add_assoc, ← List.sum_map_add, ← List.sum_map_add]
  rw [List.map_congr_left (fun t ht => ite_col_sum t v r (hdist t ht))]
  exact sum_map_ite_filter tris (fun t => v ∈ triL t) r

/-- C3 (amended): in areal mode, when no vertex occurs twice in the same
column of the triangle list and triangle indices are pairwise distinct,
every vertex's distortion is the natural log of the arithmetic MEAN over
its touching triangles of the per-triangle flat/fiducial area ratios (sum
of `flatarea/fidarea` divided by the number of touching triangles), with a
zero mean replaced by 1 before the log — not the claimed ratio of summed
areas. -/
theorem areal_distortion_amended (fid flat : List Vec3)
    (tris : List (ℕ × ℕ × ℕ))
    (hnd0 : (tris.map fun t => t.1).Nodup)
    (hnd1 : (tris.map fun t => t.2.1).Nodup)
    (hnd2 : (tris.map fun t => t.2.2).Nodup)
    (hdist : ∀ t ∈ tris, t.1 ≠ t.2.1 ∧ t.1 ≠ t.2.2 ∧ t.2.1 ≠ t.2.2)
    (v : ℕ) :
    arealAt fid flat tris v =
      Real.log
        (if (((tris.filter fun t => decide (v ∈ triL t)).map
                fun t => triArea flat t / triArea fid t).sum /
              ((tris.filter fun t => decide (v ∈ triL t)).length : ℝ)) = 0
         then 1
         else ((tris.filter fun t => decide (v ∈ triL t)).map
                fun t => triArea flat t / triArea fid t).sum /
              ((tris.filter fun t => decide (v ∈ triL t)).length : ℝ)) := by
  simp only [arealAt]
  rw [vertRatios_eq_sum fid flat tris hnd0 hnd1 hnd2 hdist v,
    bincountAt_filter tris v hdist]

lemma triArea_fid5_t0 : triArea fid5 (0, 1, 2) = 1 / 2 := by
  unfold triArea
  rw [show crossSq (fid5.getD 0 (0, 0, 0)) (fid5.getD 1 (0, 0, 0))
      (fid5.getD 2 (0, 0, 0)) = 1 by norm_num [crossSq, fid5]]
  rw [Rat.cast_one, Real.sqrt_one]

lemma triArea_fid5_t1 : triArea fid5 (2, 3, 4) = 2 := by
  unfold triArea
  rw [show crossSq (fid5.getD 2 (0, 0, 0)) (fid5.getD 3 (0, 0, 0))
      (fid5.getD 4 (0, 0, 0)) = 16 by norm_num [crossSq, fid5]]
  rw [show ((16 : ℚ) : ℝ) = 4 ^ 2 by norm_num,
    Real.sqrt_sq (by norm_num : (0 : ℝ) ≤ 4)]
  norm_num

lemma triArea_flat5_t0 : triArea flat5 (0, 1, 2) = 1 / 2 := by
  unfold triArea
  rw [show crossSq (flat5.getD 0 (0, 0, 0)) (flat5.getD 1 (0, 0, 0))
      (flat5.getD 2 (0, 0, 0)) = 1 by norm_num [crossSq, flat5]]
  rw [Rat.cast_one, Real.sqrt_one]

lemma triArea_flat5_t1 : triArea flat5 (2, 3, 4) = 8 := by
  unfold triArea
  rw [show crossSq (flat5.getD 2 (0, 0, 0)) (flat5.getD 3 (0, 0, 0))
      (flat5.getD 4 (0, 0, 0)) = 256 by norm_num [crossSq, flat5]]
  rw [show ((256 : ℚ) : ℝ) = 16 ^ 2 by norm_num,
    Real.sqrt_sq (by norm_num : (0 : ℝ) ≤ 16)]
  norm_num

/-- C3 counterexample: vertex 2 touches both triangles.  The code's value
is log((1 + 4)/2) = log(5/2) (mean of the per-triangle ratios 1 and 4); the
claim's value is log((1/2 + 8)/(1/2 + 2)) = log(17/5).  They differ, so
the claimed ratio-of-summed-areas is false at this input. -/
theorem areal_distortion_counterexample :
    arealAt fid5 flat5 tris5 2 ≠ arealClaim fid5 flat5 tris5 2 := by
  have hlhs : arealAt fid5 flat5 tris5 2 = Real.log (5 / 2) := by
    simp only [arealAt]
    rw [vertRatios_eq_sum fid5 flat5 tris5 (by decide) (by decide) (by decide)
      (by decide) 2]
    rw [show bincountAt tris5 2 = 2 by decide]
    rw [show tris5.filter (fun t => decide (2 ∈ triL t)) = tris5 by decide]
    simp only [tris5, List.map_cons, List.map_nil, List.sum_cons,
      List.sum_nil, triArea_fid5_t0, triArea_fid5_t1, triArea_flat5_t0,
      triArea_flat5_t1]
    norm_num
  have hrhs : arealClaim fid5 flat5 tris5 2 = Real.log (17 / 5) := by
    simp only [arealClaim]
    rw [show tris5.filter (fun t => decide (2 ∈ triL t)) = tris5 by decide]
    simp only [tris5, List.map_cons, List.map_nil, List.sum_cons,
      List.sum_nil, triArea_fid5_t0, triArea_fid5_t1, triArea_flat5_t0,
      triArea_flat5_t1]
    norm_num
  rw [hlhs, hrhs]
  have : Real.log (5 / 2) < Real.log (17 / 5) := by
    apply Real.log_lt_log (by norm_num)
    norm_num
  exact ne_of_lt this

/-- Witness for C3's amended theorem at the same concrete mesh. -/
theorem areal_distortion_amended_witness :
    ((tris5.map fun t => t.1).Nodup ∧ (tris5.map fun t => t.2.1).Nodup ∧
        (tris5.map fun t => t.2.2).Nodup) ∧
      arealAt fid5 flat5 tris5 2 =
        Real.log
          (if (((tris5.filter fun t => decide (2 ∈ triL t)).map
                  fun t => triArea flat5 t / triArea fid5 t).sum /
                ((tris5.filter fun t => decide (2 ∈ triL t)).length : ℝ)) = 0
           then 1
           else ((tris5.filter fun t => decide (2 ∈ triL t)).map
                  fun t => triArea flat5 t / triArea fid5 t).sum /
                ((tris5.filter fun t => decide (2 ∈ triL t)).length : ℝ)) :=
  ⟨⟨by decide, by decide, by decide⟩,
    areal_distortion_amended fid5 flat5 tris5 (by decide) (by decide)
      (by decide) (by decide) 2⟩

lemma triArea_verts4_t0 : triArea verts4 (0, 1, 2) = 1 / 2 := by
  unfold triArea
  rw [show crossSq (verts4.getD 0 (0, 0, 0)) (verts4.getD 1 (0, 0, 0))
      (verts4.getD 2 (0, 0, 0)) = 1 by norm_num [crossSq, verts4]]
  rw [Rat.cast_one, Real.sqrt_one]

lemma triArea_verts4_t1 : triArea verts4 (0, 2, 3) = 1 / 2 := by
  unfold triArea
  rw [show crossSq (verts4.getD 0 (0, 0, 0)) (verts4.getD 2 (0, 0, 0))
      (verts4.getD 3 (0, 0, 0)) = 1 by norm_num [crossSq, verts4]]
  rw [Rat.cast_one, Real.sqrt_one]

lemma ratiosOf_verts4 : ratiosOf verts4 verts4 tris4 = [1, 1] := by
  unfold ratiosOf tris4
  simp only [List.map_cons, List.map_nil]
  rw [triArea_verts4_t0, triArea_verts4_t1]
  norm_num

/-- C9: on the isometric square mesh, every per-triangle ratio is 1, yet
the code's distortion at vertex 0 is log(1/2) ≠ 0: the two `+= 1`
contributions of vertex 0 arrive in the SAME fancy-indexed statement
(column 0 of both triangles), and NumPy's gather-add-scatter semantics
keeps only one of them, while `np.bincount` counts both occurrences.
The claim (log 1 = 0 everywhere on an isometric mapping, also the source
docstring's "average of the neighboring triangles") is the intent; the
code's fancy-index accumulation is the slip. -/
theorem areal_isometric_bug :
    arealAt verts4 verts4 tris4 0 = Real.log (1 / 2) ∧
      Real.log ((1 : ℝ) / 2) ≠ 0 := by
  constructor
  · simp only [arealAt]
    have hv : vertRatios verts4 verts4 tris4 0 = 1 := by
      simp only [vertRatios, ratiosOf_verts4]
      simp only [tris4, List.map_cons, List.map_nil, scatAdd,
        List.zip_cons_cons, List.zip_nil_right, lastHit]
      norm_num
    rw [hv, show bincountAt tris4 0 = 2 by decide]
    norm_num
  · rw [show (1 : ℝ) / 2 = 2⁻¹ by norm_num, Real.log_inv]
    have : (0 : ℝ) < Real.log 2 := Real.log_pos (by norm_num)
    intro h
    rw [neg_eq_zero] at h
    exact absurd h (ne_of_gt this)

lemma mem_facesOf_aux (a : ℕ) (tris : List (ℕ × ℕ × ℕ)) (init : Finset ℕ)
    (b : ℕ) :
    (b ∈ tris.foldl
        (fun acc t => if a ∈ triL t then acc ∪ (triL t).toFinset else acc)
        init) ↔
      b ∈ init ∨ ∃ t ∈ tris, a ∈ triL t ∧ b ∈ triL t := by
  induction tris generalizing init with
  | nil => simp
  | cons t rest ih =>
      simp only [List.foldl_cons]
      by_cases ha : a ∈ triL t
      · rw [if_pos ha, ih]
        simp only [Finset.mem_union, List.mem_toFinset, List.mem_cons]
        constructor
        · rintro (⟨hb | hb⟩ | ⟨u, hu, hau, hbu⟩)
          · exact Or.inl hb
          · exact Or.inr ⟨t, Or.inl rfl, ha, hb⟩
          · exact Or.inr ⟨u, Or.inr hu, hau, hbu⟩
        · rintro (hb | ⟨u, hu | hu, hau, hbu⟩)
          · exact Or.inl (Or.inl hb)
          · exact Or.inl (Or.inr (hu ▸ hbu))
          · exact Or.inr ⟨u, hu, hau, hbu⟩
      · rw [if_neg ha, ih]
        constructor
        · rintro (hb | ⟨u, hu, hau, hbu⟩)
          · exact Or.inl hb
          · exact Or.inr ⟨u, List.mem_cons_of_mem _ hu, hau, hbu⟩
        · rintro (hb | ⟨u, hu, hau, hbu⟩)
          · exact Or.inl hb
          · rcases List.mem_cons.mp hu with hu | hu
            · exact absurd (hu ▸ hau) ha
            · exact Or.inr ⟨u, hu, hau, hbu⟩

/-- Characterisation of the `faces` dict of `get_curvature`. -/
lemma mem_facesOf (tris : List (ℕ × ℕ × ℕ)) (a b : ℕ) :
    b ∈ facesOf tris a ↔ ∃ t ∈ tris, a ∈ triL t ∧ b ∈ triL t := by
  unfold facesOf
  rw [mem_facesOf_aux]
  simp

/-- C10 (amended): both adjacency structures are symmetric; the networkx
graph has a self-loop at `a` exactly when some triangle repeats `a` in two
of its slots (degenerate); but the curvature smoother's triangle-sharing
`faces` sets contain EVERY vertex that occurs in any triangle as its own
neighbour — a self-loop introduced without any degenerate triangle,
because `faces[pt] |= set(poly)` runs with `pt in poly`. -/
theorem graph_symmetry_amended (tris : List (ℕ × ℕ × ℕ)) (a b : ℕ) :
    (adjNx tris a b ↔ adjNx tris b a) ∧
      (adjNx tris a a ↔ ∃ t ∈ tris,
        (t.1 = a ∧ t.2.1 = a) ∨ (t.2.1 = a ∧ t.2.2 = a) ∨
          (t.1 = a ∧ t.2.2 = a)) ∧
      (b ∈ facesOf tris a ↔ a ∈ facesOf tris b) ∧
      (a ∈ facesOf tris a ↔ ∃ t ∈ tris, a ∈ triL t) := by
  refine ⟨or_comm, ?_, ?_, ?_⟩
  · unfold adjNx surfEdges
    rw [or_self]
    simp only [List.mem_flatMap, List.mem_cons, List.not_mem_nil, or_false,
      Prod.mk.injEq]
    constructor
    · rintro ⟨t, ht, ⟨h1, h2⟩ | ⟨h1, h2⟩ | ⟨h1, h2⟩⟩
      · exact ⟨t, ht, Or.inl ⟨h1.symm, h2.symm⟩⟩
      · exact ⟨t, ht, Or.inr (Or.inl ⟨h1.symm, h2.symm⟩)⟩
      · exact ⟨t, ht, Or.inr (Or.inr ⟨h1.symm, h2.symm⟩)⟩
    · rintro ⟨t, ht, ⟨h1, h2⟩ | ⟨h1, h2⟩ | ⟨h1, h2⟩⟩
      · exact ⟨t, ht, Or.inl ⟨h1.symm, h2.symm⟩⟩
      · exact ⟨t, ht, Or.inr (Or.inl ⟨h1.symm, h2.symm⟩)⟩
      · exact ⟨t, ht, Or.inr (Or.inr ⟨h1.symm, h2.symm⟩)⟩
  · rw [mem_facesOf, mem_facesOf]
    constructor
    · rintro ⟨t, ht, h1, h2⟩
      exact ⟨t, ht, h2, h1⟩
    · rintro ⟨t, ht, h1, h2⟩
      exact ⟨t, ht, h2, h1⟩
  · rw [mem_facesOf]
    constructor
    · rintro ⟨t, ht, h1, _⟩
      exact ⟨t, ht, h1⟩
    · rintro ⟨t, ht, h1⟩
      exact ⟨t, ht, h1, h1⟩

/-- C10 counterexample: the single NON-degenerate triangle (0,1,2) puts
vertex 0 into its own `faces` neighbour set — a self-loop with no repeated
vertex index anywhere — while the networkx graph (correctly) has none. -/
theorem graph_selfloop_counterexample :
    0 ∈ facesOf [(0, 1, 2)] 0 ∧ ¬ adjNx [(0, 1, 2)] 0 0 ∧
      (∀ t ∈ ([((0 : ℕ), 1, 2)] : List (ℕ × ℕ × ℕ)),
        t.1 ≠ t.2.1 ∧ t.1 ≠ t.2.2 ∧ t.2.1 ≠ t.2.2) := by
  refine ⟨by decide, by decide, by decide⟩

lemma pathLenMM_nonneg (verts : ℕ → Vec3) (p : List ℕ) :
    0 ≤ pathLenMM verts p := by
  induction p with
  | nil => simp [pathLenMM]
  | cons a rest ih =>
      cases rest with
      | nil => simp [pathLenMM]
      | cons b r2 =>
          simp only [pathLenMM]
          exact add_nonneg (Real.sqrt_nonneg _) ih

lemma sepOK_step (adj : ℕ → List ℕ) (verts : ℕ → Vec3) (radius spacing : ℕ)
    (s : TissotState) (c : ℕ) (s2 : TissotState)
    (hstep : TissotStep adj verts radius spacing s c s2)
    (hs : SepOK adj verts spacing s.centers) :
    SepOK adj verts spacing s2.centers := by
  cases hstep with
  | reject _ => exact hs
  | accept h =>
      intro i j hi hj hij p hp
      have hj2 : j < s.centers.length + 1 := by
        simpa using hj
      by_cases hjl : j < s.centers.length
      · have hil : i < s.centers.length := lt_trans hij hjl
        have egi : (s.centers ++ [c]).get ⟨i, hi⟩ = s.centers.get ⟨i, hil⟩ := by
          simp [List.get_eq_getElem, List.getElem_append_left hil]
        have egj : (s.centers ++ [c]).get ⟨j, hj⟩ = s.centers.get ⟨j, hjl⟩ := by
          simp [List.get_eq_getElem, List.getElem_append_left hjl]
        rw [egi, egj] at hp
        exact hs i j hil hjl hij p hp
      · have hje : j = s.centers.length := by omega
        have hil : i < s.centers.length := by omega
        have egi : (s.centers ++ [c]).get ⟨i, hi⟩ = s.centers.get ⟨i, hil⟩ := by
          simp [List.get_eq_getElem, List.getElem_append_left hil]
        have egj : (s.centers ++ [c]).get ⟨j, hj⟩ = c := by
          simp [List.get_eq_getElem, hje]
        rw [egi, egj] at hp
        by_contra hlt
        push_neg at hlt
        exact h ⟨s.centers.get ⟨i, hil⟩, List.get_mem _ _ hil, p, hp, hlt⟩

lemma sepOK_run (adj : ℕ → List ℕ) (verts : ℕ → Vec3)
    (radius spacing maxfails : ℕ) (s : TissotState) (cands : List ℕ)
    (s3 : TissotState)
    (hrun : TissotRun adj verts radius spacing maxfails s cands s3)
    (hs : SepOK adj verts spacing s.centers) :
    SepOK adj verts spacing s3.centers := by
  induction hrun with
  | nil _ => exact hs
  | stop _ _ _ => exact hs
  | step s c s2 cs s3 h hstep hrun ih =>
      exact ih (sepOK_step adj verts radius spacing s c s2 hstep hs)

/-- C5 (amended): over any complete run of the sampling loop starting from
the empty center list, every pair of accepted centers satisfies the check
the code actually performs — whenever the earlier center is reached by the
hop-limited (`spacing/2 + 20` HOPS, not mm) breadth-first search from the
later center, the world length of the recovered breadth-first (fewest-hop,
not weighted-shortest) path is at least `spacing`.  Centers beyond the hop
cutoff are never checked, and the measured path need not be the
weighted-shortest one, so the claim's "no two accepted centers within
`spacing`" is NOT guaranteed (see the counterexample). -/
theorem tissot_separation_amended (adj : ℕ → List ℕ) (verts : ℕ → Vec3)
    (radius spacing maxfails : ℕ) (t0 : ℕ → ℝ) (cands : List ℕ)
    (final : TissotState)
    (hrun : TissotRun adj verts radius spacing maxfails ⟨[], 0, t0⟩ cands
      final) :
    SepOK adj verts spacing final.centers := by
  apply sepOK_run adj verts radius spacing maxfails _ cands final hrun
  intro i j hi hj hij p hp
  exact absurd hi (by simp)

lemma isGraphPathB_iff (tris : List (ℕ × ℕ × ℕ)) (p : List ℕ) :
    isGraphPathB tris p = true ↔ IsGraphPath tris p := by
  induction p with
  | nil => simp [isGraphPathB, IsGraphPath]
  | cons a rest ih =>
      cases rest with
      | nil => simp [isGraphPathB, IsGraphPath]
      | cons b r2 =>
          simp only [isGraphPathB, Bool.and_eq_true, decide_eq_true_iff,
            IsGraphPath, List.chain'_cons] at ih ⊢
          exact and_congr Iff.rfl ih

lemma runC5 : TissotRun adj48 verts48 10 6 1 ⟨[], 0, fun _ => 0⟩ [0, 48]
    finalC5 := by
  refine TissotRun.step _ 0
    ⟨[0], 0, paintDisc adj48 verts48 10 (fun _ => 0) 0⟩ [48] finalC5
    (by norm_num) ?_ ?_
  · have h0 : ¬ scrapped adj48 verts48 6 ([] : List ℕ) 0 := by
      rintro ⟨cv, hcv, -⟩
      exact absurd hcv (List.not_mem_nil cv)
    exact TissotStep.accept _ _ h0
  · refine TissotRun.step _ 48 finalC5 [] finalC5 (by norm_num) ?_
      (TissotRun.nil finalC5)
    have hnone : lookupPath (bfsPaths adj48 48 (6 / 2 + 20)) 0 = none := by
      decide
    have h1 : ¬ scrapped adj48 verts48 6 [0] 48 := by
      rintro ⟨cv, hcv, p, hp, hlen⟩
      simp only [List.mem_singleton] at hcv
      subst hcv
      rw [hnone] at hp
      cases hp
    exact TissotStep.accept _ _ h1

lemma hop48 (a : ℕ) :
    Real.sqrt (sqdist (verts48 (a * 2)) (verts48 ((a + 1) * 2))) = 1 / 5 := by
  have hsq : sqdist (verts48 (a * 2)) (verts48 ((a + 1) * 2)) = 1 / 25 := by
    unfold verts48 sqdist
    push_cast
    ring_nf
  rw [hsq]
  rw [show ((1 / 25 : ℚ) : ℝ) = (1 / 5 : ℝ) ^ 2 by norm_num]
  exact Real.sqrt_sq (by norm_num)

lemma pathLen_listFrom (m : ℕ) : ∀ a : ℕ,
    pathLenMM verts48 (listFrom a m) = m * (1 / 5 : ℝ) := by
  induction m with
  | zero =>
      intro a
      simp [listFrom, pathLenMM]
  | succ m ih =>
      intro a
      cases m with
      | zero =>
          simp only [listFrom, pathLenMM]
          rw [hop48 a]
          norm_num
      | succ m2 =>
          have htail := ih (a + 1)
          simp only [listFrom] at htail ⊢
          simp only [pathLenMM]
          rw [hop48 a]
          rw [htail]
          push_cast
          ring

/-- C5 counterexample: a complete run on the strip accepts centers 0 and
48, because vertex 0 lies 24 hops from vertex 48 — beyond the 23-hop
search cutoff — and is therefore never checked; yet the even-vertex graph
path between the two accepted centers has world length 24/5 = 4.8 mm,
strictly below `spacing = 6`.  So two accepted centers of one hemisphere
run DO have shortest-path distance (≤ 4.8) below `spacing`, refuting the
claim at this concrete input. -/
theorem tissot_spacing_counterexample :
    (TissotRun adj48 verts48 10 6 1 ⟨[], 0, fun _ => 0⟩ [0, 48] finalC5 ∧
        finalC5.centers = [0, 48]) ∧
      IsGraphPath tris48 evenPath ∧
      evenPath.head? = some 0 ∧ evenPath.getLast? = some 48 ∧
      pathLenMM verts48 evenPath < (6 : ℝ) := by
  refine ⟨⟨runC5, rfl⟩, (isGraphPathB_iff tris48 evenPath).mp (by decide),
    by decide, by decide, ?_⟩
  have he : evenPath = listFrom 0 24 := by decide
  rw [he, pathLen_listFrom 24 0]
  norm_num

lemma runW : TissotRun adjW vertsW 10 0 1 ⟨[], 0, fun _ => 0⟩ [0, 1]
    finalW := by
  refine TissotRun.step _ 0
    ⟨[0], 0, paintDisc adjW vertsW 10 (fun _ => 0) 0⟩ [1] finalW
    (by norm_num) ?_ ?_
  · have h0 : ¬ scrapped adjW vertsW 0 ([] : List ℕ) 0 := by
      rintro ⟨cv, hcv, -⟩
      exact absurd hcv (List.not_mem_nil cv)
    exact TissotStep.accept _ _ h0
  · refine TissotRun.step _ 1 finalW [] finalW (by norm_num) ?_
      (TissotRun.nil finalW)
    have h1 : ¬ scrapped adjW vertsW 0 [0] 1 := by
      rintro ⟨cv, hcv, p, hp, hlen⟩
      have : (0 : ℝ) ≤ pathLenMM vertsW p := pathLenMM_nonneg vertsW p
      simp only [Nat.cast_zero] at hlen
      exact absurd hlen (not_lt.mpr this)
    exact TissotStep.accept _ _ h1

/-- Witness for C5's amended theorem: on the concrete two-center run, the
separation check holds for the recovered breadth-first path [1, 0]. -/
theorem tissot_separation_amended_witness :
    TissotRun adjW vertsW 10 0 1 ⟨[], 0, fun _ => 0⟩ [0, 1] finalW ∧
      ((0 : ℕ) : ℝ) ≤ pathLenMM vertsW [1, 0] := by
  refine ⟨runW, ?_⟩
  have hsep := tissot_separation_amended adjW vertsW 10 0 1 (fun _ => 0)
    [0, 1] finalW runW
  have hlook : lookupPath
      (bfsPaths adjW (finalW.centers.get ⟨1, by decide⟩) (0 / 2 + 20))
      (finalW.centers.get ⟨0, by decide⟩) = some [1, 0] := by
    decide
  exact hsep 0 1 (by decide) (by decide) (by decide) [1, 0] hlook

end PyCortex
